import Mathlib

/-!
# Key-collision clustering: verification of the repository specification

The repository's only source file is the notebook
`examples/notebooks/Parking Violations - Street Name Clustering
(Performance comparison).ipynb`, which drives the `KeyCollision` clusterer,
the `Fingerprint` key function and the `StandardizeUSStreetName` transform
of the `openclean` library.  The implementations of those operations are
not part of the repository snapshot (only their notebook caller is), so
the clusterer is modelled here from the specification: a key-collision
clustering engine that groups values by a deterministic key function,
with parallel key computation over disjoint chunks of the input followed
by a single sequential merge into the result mapping.

Values and keys are opaque types with decidable equality.  The result
mapping is an association list from keys to member lists, built
incrementally; member lists use set semantics (no duplicates).
-/

namespace OpenClean

variable {V K : Type} [DecidableEq V] [DecidableEq K]

/-- Modelled from the spec: one step of the merge phase of the
`KeyCollision` clusterer (implementation not in the repository snapshot;
only the notebook caller is).  Inserts value `v` with key `k` into the
incrementally-built result mapping: the entry for `k` gains `v` unless
already present (set semantics), a fresh key is appended at the end. -/
def insertPair (m : List (K × List V)) (k : K) (v : V) : List (K × List V) :=
  match m with
  | [] => [(k, [v])]
  | (k', vs) :: rest =>
      if k = k' then (k', if v ∈ vs then vs else vs ++ [v]) :: rest
      else (k', vs) :: insertPair rest k v

/-- Merge a worker-produced list of `(key, value)` pairs into an existing
result mapping, sequentially, in order. -/
def mergeInto (m : List (K × List V)) (ps : List (K × V)) : List (K × List V) :=
  ps.foldl (fun acc p => insertPair acc p.1 p.2) m

/-- Modelled from the spec: the sequential grouping/merge step — build the
key → set-of-values mapping from all computed `(key, value)` pairs. -/
def mergePairs (ps : List (K × V)) : List (K × List V) :=
  mergeInto [] ps

/-- Split a list into contiguous chunks; each chunk takes at least one
element, so the recursion terminates and the chunks concatenate back to
the original list for every requested size. -/
def chunksOf (n : Nat) : List α → List (List α)
  | [] => []
  | x :: xs => (x :: xs.take (n - 1)) :: chunksOf n (xs.drop (n - 1))
  termination_by xs => xs.length
  decreasing_by simp [List.length_drop]; omega

/-- Chunk size used to distribute `n` values over `c` workers
(ceiling division). -/
def chunkSize (n c : Nat) : Nat := (n + c - 1) / c

/-- Modelled from the spec: `KeyCollision.clusters` —
`cluster(values, keyFn, concurrency)`.  The input is split into one chunk
per worker, each worker computes `(keyFn v, v)` for its chunk, and the
worker outputs are merged sequentially into the result mapping. -/
def cluster (values : List V) (keyFn : V → K) (c : Nat) : List (K × List V) :=
  mergePairs (((chunksOf (chunkSize values.length c) values).map
      (fun ch => ch.map (fun v => (keyFn v, v)))).flatten)

/-- The merge of per-chunk worker outputs for an arbitrary split of the
input into chunks (the partition-then-merge path). -/
def workerMerge (parts : List (List V)) (keyFn : V → K) : List (K × List V) :=
  mergePairs ((parts.map (fun ch => ch.map (fun v => (keyFn v, v)))).flatten)

/-- Modelled from the spec: `KeyComputationError` — the error raised when
the key function fails for a value; it carries the offending value. -/
structure KeyComputationError (V : Type) where
  value : V
  deriving DecidableEq, Repr

/-- Compute keys for a list of values with a fallible key function; the
first failure aborts and reports the offending value. -/
def computeKeys (keyFn : V → Option K) : List V → Except (KeyComputationError V) (List (K × V))
  | [] => .ok []
  | v :: vs =>
      match keyFn v with
      | none => .error ⟨v⟩
      | some k =>
          match computeKeys keyFn vs with
          | .error e => .error e
          | .ok ps => .ok ((k, v) :: ps)

/-- Modelled from the spec: the clusterer's error path — `cluster` with a
key function that may raise.  The caller receives either the complete
mapping or a single `KeyComputationError`; there is no partial result. -/
def clusterE (values : List V) (keyFn : V → Option K) (c : Nat) :
    Except (KeyComputationError V) (List (K × List V)) :=
  match computeKeys keyFn
      ((chunksOf (chunkSize values.length c) values).flatten) with
  | .error e => .error e
  | .ok ps => .ok (mergePairs ps)

/-- The keys of a result mapping. -/
def keysOf (m : List (K × List V)) : List K := m.map Prod.fst

/-- `v` is a member of the cluster for key `k` in mapping `m`. -/
def memOf (m : List (K × List V)) (k : K) (v : V) : Prop :=
  ∃ p ∈ m, p.1 = k ∧ v ∈ p.2

/-- Two result mappings describe the same partition: the same
key → set-of-values relation. -/
def SamePartition (m₁ m₂ : List (K × List V)) : Prop :=
  ∀ k v, memOf m₁ k v ↔ memOf m₂ k v

/-- Flatten a clustering result back to the collection of its members. -/
def flattenClusters (m : List (K × List V)) : List V :=
  (m.map Prod.snd).flatten

/-! ## Further model definitions -/

/-- The member list stored for key `k` in mapping `m` (empty if absent). -/
def lookupM : List (K × List V) → K → List V
  | [], _ => []
  | (k', vs) :: rest, k => if k = k' then vs else lookupM rest k

/-- Modelled from the spec: `StandardizeUSStreetName.apply(values, threads)`
(implementation not in the repository snapshot; only the notebook caller is)
— a pure per-value standardization function applied in parallel: the input
is split into one chunk per thread, each thread maps the function over its
chunk, and the chunk outputs are concatenated in order. -/
def applyPar (f : V → V) (values : List V) (threads : Nat) : List V :=
  ((chunksOf (chunkSize values.length threads) values).map (List.map f)).flatten

/-- Modelled from the spec: the inline stream path of the notebook
(`stream.select('Street').update(standardizer)` then `stream.cluster`,
implementations not in the repository snapshot) — every streamed row is
updated by the standardizer and the resulting values are clustered
single-threaded. -/
def streamCluster (rows : List V) (f : V → V) (keyFn : V → K) :
    List (K × List V) :=
  cluster (rows.map f) keyFn 1

/-- Modelled from the spec: the materialize-then-cluster path of the
notebook — extract the distinct values first, standardize them, then
cluster the standardized collection with `c` worker threads. -/
def materializedCluster (rows : List V) (f : V → V) (keyFn : V → K) (c : Nat) :
    List (K × List V) :=
  cluster ((rows.dedup).map f) keyFn c

/-- Modelled from the spec: the observable state of a clustering call — the
caller-supplied `input` collection, a read cursor `pos`, and the result
mapping built so far. -/
structure ClusterState (V K : Type) where
  input : List V
  pos : Nat
  acc : List (K × List V)

/-- Modelled from the spec: the clustering call as a loop over the state:
read the value at the cursor, compute its key (aborting with a
`KeyComputationError` on failure), insert it into the accumulated mapping,
and advance the cursor.  The loop reads `input` and never writes it. -/
def clusterLoop (keyFn : V → Option K) (s : ClusterState V K) :
    ClusterState V K × Except (KeyComputationError V) (List (K × List V)) :=
  if h : s.pos < s.input.length then
    match keyFn (s.input.get ⟨s.pos, h⟩) with
    | none => (s, .error ⟨s.input.get ⟨s.pos, h⟩⟩)
    | some k =>
        clusterLoop keyFn
          ⟨s.input, s.pos + 1, insertPair s.acc k (s.input.get ⟨s.pos, h⟩)⟩
  else (s, .ok s.acc)
  termination_by s.input.length - s.pos
  decreasing_by simp; omega

/-! ## Chunking and sequentialization lemmas -/

theorem chunksOf_flatten (n : Nat) (xs : List α) : (chunksOf n xs).flatten = xs := by
  induction xs using chunksOf.induct n with
  | case1 => simp [chunksOf]
  | case2 x xs ih => simp [chunksOf, ih, List.take_append_drop]

theorem cluster_eq_seq (values : List V) (keyFn : V → K) (c : Nat) :
    cluster values keyFn c = mergePairs (values.map (fun v => (keyFn v, v))) := by
  unfold cluster
  rw [← List.map_flatten, chunksOf_flatten]

theorem lookupM_nil (k : K) : lookupM ([] : List (K × List V)) k = [] := rfl

theorem lookupM_cons (k' : K) (vs : List V) (rest : List (K × List V)) (k : K) :
    lookupM ((k', vs) :: rest) k = if k = k' then vs else lookupM rest k := rfl

theorem keysOf_nil : keysOf ([] : List (K × List V)) = [] := rfl

theorem keysOf_cons (p : K × List V) (m : List (K × List V)) :
    keysOf (p :: m) = p.1 :: keysOf m := rfl

theorem lookupM_insertPair_self (m : List (K × List V)) (k : K) (v : V) :
    lookupM (insertPair m k v) k =
      if v ∈ lookupM m k then lookupM m k else lookupM m k ++ [v] := by
  induction m with
  | nil => simp [insertPair, lookupM]
  | cons p rest ih =>
      obtain ⟨ka, vs⟩ := p
      by_cases hk : k = ka
      · subst hk
        simp [insertPair, lookupM]
      · simp [insertPair, lookupM, hk, ih]

theorem lookupM_insertPair_ne (m : List (K × List V)) (k : K) (v : V) (k' : K)
    (h : k' ≠ k) : lookupM (insertPair m k v) k' = lookupM m k' := by
  induction m with
  | nil => simp [insertPair, lookupM, h]
  | cons p rest ih =>
      obtain ⟨ka, vs⟩ := p
      by_cases hk : k = ka
      · subst hk
        simp [insertPair, lookupM, h]
      · by_cases hk' : k' = ka
        · simp [insertPair, lookupM, hk, hk']
        · simp [insertPair, lookupM, hk, hk', ih]

theorem mem_lookupM_insertPair (m : List (K × List V)) (k : K) (v : V)
    (k' : K) (v' : V) :
    v' ∈ lookupM (insertPair m k v) k' ↔
      v' ∈ lookupM m k' ∨ (k' = k ∧ v' = v) := by
  by_cases hk : k' = k
  · subst hk
    rw [lookupM_insertPair_self]
    by_cases hv : v ∈ lookupM m k'
    · simp only [if_pos hv]
      constructor
      · exact fun h => Or.inl h
      · rintro (h | ⟨-, rfl⟩)
        · exact h
        · exact hv
    · simp [if_neg hv]
  · rw [lookupM_insertPair_ne m k v k' hk]
    simp [hk]

theorem keysOf_insertPair (m : List (K × List V)) (k : K) (v : V) :
    keysOf (insertPair m k v) =
      if k ∈ keysOf m then keysOf m else keysOf m ++ [k] := by
  induction m with
  | nil => simp [insertPair, keysOf]
  | cons p rest ih =>
      obtain ⟨ka, vs⟩ := p
      by_cases hk : k = ka
      · subst hk
        simp [insertPair, keysOf_cons]
      · by_cases hmem : k ∈ keysOf rest
        · simp [insertPair, hk, keysOf_cons, ih, hmem, List.mem_cons]
        · simp [insertPair, hk, keysOf_cons, ih, hmem, List.mem_cons]

theorem mem_keysOf_insertPair (m : List (K × List V)) (k k' : K) (v : V) :
    k' ∈ keysOf (insertPair m k v) ↔ k' ∈ keysOf m ∨ k' = k := by
  rw [keysOf_insertPair]
  by_cases h : k ∈ keysOf m
  · simp only [if_pos h]
    constructor
    · exact Or.inl
    · rintro (hm | rfl)
      · exact hm
      · exact h
  · simp [if_neg h]

theorem keysNodup_insertPair (m : List (K × List V)) (k : K) (v : V)
    (h : (keysOf m).Nodup) : (keysOf (insertPair m k v)).Nodup := by
  rw [keysOf_insertPair]
  by_cases hm : k ∈ keysOf m
  · simpa [hm] using h
  · simp [hm, List.nodup_append, h]

theorem lookupNodup_insertPair (m : List (K × List V)) (k : K) (v : V)
    (h : ∀ k', (lookupM m k').Nodup) (k' : K) :
    (lookupM (insertPair m k v) k').Nodup := by
  by_cases hk : k' = k
  · subst hk
    rw [lookupM_insertPair_self]
    by_cases hv : v ∈ lookupM m k'
    · simpa [hv] using h k'
    · simp [hv, List.nodup_append, h k']
  · rw [lookupM_insertPair_ne m k v k' hk]
    exact h k'

/-! ## Merge lemmas -/

theorem mergeInto_nil (m : List (K × List V)) : mergeInto m ([] : List (K × V)) = m := rfl

theorem mergeInto_cons (m : List (K × List V)) (p : K × V) (ps : List (K × V)) :
    mergeInto m (p :: ps) = mergeInto (insertPair m p.1 p.2) ps := rfl

theorem mem_lookupM_mergeInto (k : K) (v : V) (ps : List (K × V)) :
    ∀ m : List (K × List V),
      v ∈ lookupM (mergeInto m ps) k ↔ v ∈ lookupM m k ∨ (k, v) ∈ ps := by
  induction ps with
  | nil => intro m; simp [mergeInto_nil]
  | cons p ps ih =>
      intro m
      rw [mergeInto_cons, ih, mem_lookupM_insertPair]
      simp only [List.mem_cons, Prod.ext_iff]
      tauto

theorem mem_keysOf_mergeInto (k : K) (ps : List (K × V)) :
    ∀ m : List (K × List V),
      k ∈ keysOf (mergeInto m ps) ↔ k ∈ keysOf m ∨ ∃ v, (k, v) ∈ ps := by
  induction ps with
  | nil => intro m; simp [mergeInto_nil]
  | cons p ps ih =>
      intro m
      rw [mergeInto_cons, ih, mem_keysOf_insertPair]
      constructor
      · rintro ((hm | rfl) | ⟨v, hv⟩)
        · exact Or.inl hm
        · exact Or.inr ⟨p.2, List.mem_cons_self _ _⟩
        · exact Or.inr ⟨v, List.mem_cons_of_mem _ hv⟩
      · rintro (hm | ⟨v, hv⟩)
        · exact Or.inl (Or.inl hm)
        · rcases List.mem_cons.mp hv with h | h
          · exact Or.inl (Or.inr (congrArg Prod.fst h))
          · exact Or.inr ⟨v, h⟩

theorem keysNodup_mergeInto (ps : List (K × V)) :
    ∀ m : List (K × List V), (keysOf m).Nodup → (keysOf (mergeInto m ps)).Nodup := by
  induction ps with
  | nil => intro m h; simpa [mergeInto_nil] using h
  | cons p ps ih =>
      intro m h
      rw [mergeInto_cons]
      exact ih _ (keysNodup_insertPair m p.1 p.2 h)

theorem lookupNodup_mergeInto (ps : List (K × V)) :
    ∀ m : List (K × List V), (∀ k, (lookupM m k).Nodup) →
      ∀ k, (lookupM (mergeInto m ps) k).Nodup := by
  induction ps with
  | nil => intro m h k; simpa [mergeInto_nil] using h k
  | cons p ps ih =>
      intro m h k
      rw [mergeInto_cons]
      exact ih _ (lookupNodup_insertPair m p.1 p.2 h) k

theorem mem_lookupM_mergePairs (ps : List (K × V)) (k : K) (v : V) :
    v ∈ lookupM (mergePairs ps) k ↔ (k, v) ∈ ps := by
  rw [mergePairs, mem_lookupM_mergeInto]
  simp [lookupM_nil]

theorem mem_keysOf_mergePairs (ps : List (K × V)) (k : K) :
    k ∈ keysOf (mergePairs ps) ↔ ∃ v, (k, v) ∈ ps := by
  rw [mergePairs, mem_keysOf_mergeInto]
  simp [keysOf_nil]

theorem keysNodup_mergePairs (ps : List (K × V)) :
    (keysOf (mergePairs ps)).Nodup := by
  exact keysNodup_mergeInto ps [] (by simp [keysOf_nil])

theorem lookupNodup_mergePairs (ps : List (K × V)) (k : K) :
    (lookupM (mergePairs ps) k).Nodup := by
  exact lookupNodup_mergeInto ps [] (fun _ => by simp [lookupM_nil]) k

/-! ## Entry membership vs lookup -/

theorem lookupM_of_mem (m : List (K × List V)) (h : (keysOf m).Nodup)
    (p : K × List V) (hp : p ∈ m) : lookupM m p.1 = p.2 := by
  induction m with
  | nil => cases hp
  | cons q rest ih =>
      rw [keysOf_cons] at h
      rcases List.mem_cons.mp hp with rfl | hp'
      · obtain ⟨ka, vs⟩ := p
        simp [lookupM_cons]
      · obtain ⟨ka, vs⟩ := q
        have hne : p.1 ≠ ka := by
          intro he
          have hmem : p.1 ∈ keysOf rest := List.mem_map_of_mem Prod.fst hp'
          rw [he] at hmem
          exact (List.nodup_cons.mp h).1 hmem
        rw [lookupM_cons, if_neg hne]
        exact ih (List.nodup_cons.mp h).2 hp'

theorem memOf_iff_lookupM (m : List (K × List V)) (h : (keysOf m).Nodup)
    (k : K) (v : V) : memOf m k v ↔ v ∈ lookupM m k := by
  constructor
  · rintro ⟨p, hp, rfl, hv⟩
    rw [lookupM_of_mem m h p hp]
    exact hv
  · intro hv
    induction m with
    | nil => simp [lookupM_nil] at hv
    | cons q rest ih =>
        obtain ⟨ka, vs⟩ := q
        rw [lookupM_cons] at hv
        by_cases hk : k = ka
        · rw [if_pos hk] at hv
          exact ⟨(ka, vs), List.mem_cons_self _ _, hk.symm, hv⟩
        · rw [if_neg hk] at hv
          obtain ⟨p, hp, h1, h2⟩ :=
            ih (List.nodup_cons.mp (by rwa [keysOf_cons] at h)).2 hv
          exact ⟨p, List.mem_cons_of_mem _ hp, h1, h2⟩

theorem entry_eq_of_keysNodup (m : List (K × List V)) (h : (keysOf m).Nodup)
    (p q : K × List V) (hp : p ∈ m) (hq : q ∈ m) (hk : p.1 = q.1) : p = q := by
  have h1 := lookupM_of_mem m h p hp
  have h2 := lookupM_of_mem m h q hq
  rw [hk, h2] at h1
  exact Prod.ext hk h1.symm

/-! ## Cluster-level characterizations -/

theorem mem_lookupM_cluster (values : List V) (f : V → K) (c : Nat) (k : K) (v : V) :
    v ∈ lookupM (cluster values f c) k ↔ v ∈ values ∧ f v = k := by
  rw [cluster_eq_seq, mem_lookupM_mergePairs]
  constructor
  · intro h
    rcases List.mem_map.mp h with ⟨w, hw, he⟩
    have h1 : f w = k := congrArg Prod.fst he
    have h2 : w = v := congrArg Prod.snd he
    subst h2
    exact ⟨hw, h1⟩
  · rintro ⟨hv, hk⟩
    exact List.mem_map.mpr ⟨v, hv, by rw [hk]⟩

theorem keysNodup_cluster (values : List V) (f : V → K) (c : Nat) :
    (keysOf (cluster values f c)).Nodup := by
  rw [cluster_eq_seq]
  exact keysNodup_mergePairs _

theorem mem_keysOf_cluster (values : List V) (f : V → K) (c : Nat) (k : K) :
    k ∈ keysOf (cluster values f c) ↔ ∃ v ∈ values, f v = k := by
  rw [cluster_eq_seq, mem_keysOf_mergePairs]
  constructor
  · rintro ⟨v, hv⟩
    rcases List.mem_map.mp hv with ⟨w, hw, he⟩
    exact ⟨w, hw, congrArg Prod.fst he⟩
  · rintro ⟨w, hw, h1⟩
    exact ⟨w, List.mem_map.mpr ⟨w, hw, by rw [h1]⟩⟩

theorem memOf_cluster (values : List V) (f : V → K) (c : Nat) (k : K) (v : V) :
    memOf (cluster values f c) k v ↔ v ∈ values ∧ f v = k := by
  rw [memOf_iff_lookupM _ (keysNodup_cluster values f c), mem_lookupM_cluster]

theorem membersNodup_cluster (values : List V) (f : V → K) (c : Nat) :
    ∀ p ∈ cluster values f c, p.2.Nodup := by
  intro p hp
  have h := lookupM_of_mem _ (keysNodup_cluster values f c) p hp
  rw [← h, cluster_eq_seq]
  exact lookupNodup_mergePairs _ _

/-! ## Error path -/

theorem computeKeys_error (keyFn : V → Option K) (l : List V)
    (h : ∃ v ∈ l, keyFn v = none) :
    ∃ e : KeyComputationError V, computeKeys keyFn l = .error e ∧
      e.value ∈ l ∧ keyFn e.value = none := by
  induction l with
  | nil => simp at h
  | cons v vs ih =>
      cases hv : keyFn v with
      | none => exact ⟨⟨v⟩, by simp [computeKeys, hv], List.mem_cons_self _ _, hv⟩
      | some k =>
          obtain ⟨w, hw, hnone⟩ := h
          rcases List.mem_cons.mp hw with rfl | hw'
          · rw [hv] at hnone; cases hnone
          · obtain ⟨e, he, hmem, hkey⟩ := ih ⟨w, hw', hnone⟩
            refine ⟨e, ?_, List.mem_cons_of_mem _ hmem, hkey⟩
            simp [computeKeys, hv, he]

theorem clusterE_eq_seq (values : List V) (keyFn : V → Option K) (c : Nat) :
    clusterE values keyFn c =
      match computeKeys keyFn values with
      | .error e => .error e
      | .ok ps => .ok (mergePairs ps) := by
  unfold clusterE
  rw [chunksOf_flatten]

theorem mem_flattenClusters_cluster (values : List V) (keyFn : V → K) (c : Nat)
    (v : V) : v ∈ flattenClusters (cluster values keyFn c) ↔ v ∈ values := by
  unfold flattenClusters
  rw [List.mem_flatten]
  constructor
  · rintro ⟨l, hl, hv⟩
    rcases List.mem_map.mp hl with ⟨p, hp, rfl⟩
    exact ((memOf_cluster values keyFn c p.1 v).mp ⟨p, hp, rfl, hv⟩).1
  · intro hv
    obtain ⟨p, hp, h1, h2⟩ :=
      (memOf_cluster values keyFn c (keyFn v) v).mpr ⟨hv, rfl⟩
    exact ⟨p.2, List.mem_map_of_mem Prod.snd hp, h2⟩

/-! ## Claim theorems -/

/-- C1: `cluster` maps each observed key `k` to exactly the set of distinct
input values whose key is `k`: membership in the cluster for `k` holds iff
the value occurs in the input and its key is `k`; member lists carry no
duplicates (duplicate inputs collapse); and two input values end up in a
common cluster iff their keys are equal. -/
theorem cluster_key_collision_spec (values : List V) (keyFn : V → K) (c : Nat)
    (hc : 0 < c) :
    (∀ k v, memOf (cluster values keyFn c) k v ↔ v ∈ values ∧ keyFn v = k) ∧
    (∀ p ∈ cluster values keyFn c, p.2.Nodup) ∧
    (∀ v ∈ values, ∀ w ∈ values,
      ((∃ k, memOf (cluster values keyFn c) k v ∧ memOf (cluster values keyFn c) k w)
        ↔ keyFn v = keyFn w)) := by
  refine ⟨fun k v => memOf_cluster values keyFn c k v,
          membersNodup_cluster values keyFn c, ?_⟩
  intro v hv w hw
  constructor
  · rintro ⟨k, h1, h2⟩
    rw [memOf_cluster] at h1 h2
    rw [h1.2, h2.2]
  · intro hk
    exact ⟨keyFn v, (memOf_cluster values keyFn c (keyFn v) v).mpr ⟨hv, rfl⟩,
      (memOf_cluster values keyFn c (keyFn v) w).mpr ⟨hw, hk.symm⟩⟩

/-- Witness for C1 at a concrete input. -/
theorem cluster_key_collision_spec_witness :
    (∀ k v, memOf (cluster [1, 2, 1, 3] (fun v => v % 2) 2) k v ↔
        v ∈ [1, 2, 1, 3] ∧ v % 2 = k) ∧
    (∀ p ∈ cluster [1, 2, 1, 3] (fun v => v % 2) 2, p.2.Nodup) ∧
    (∀ v ∈ [1, 2, 1, 3], ∀ w ∈ [1, 2, 1, 3],
      ((∃ k, memOf (cluster [1, 2, 1, 3] (fun v => v % 2) 2) k v ∧
          memOf (cluster [1, 2, 1, 3] (fun v => v % 2) 2) k w) ↔ v % 2 = w % 2)) :=
  cluster_key_collision_spec [1, 2, 1, 3] (fun v => v % 2) 2 (by decide)

/-- C2: partition invariant — the union of the members of all returned
clusters equals the set of distinct values of the input, and distinct
clusters are pairwise disjoint. -/
theorem cluster_partition_invariant (values : List V) (keyFn : V → K) (c : Nat) :
    (∀ v, v ∈ flattenClusters (cluster values keyFn c) ↔ v ∈ values.dedup) ∧
    (∀ p ∈ cluster values keyFn c, ∀ q ∈ cluster values keyFn c, p ≠ q →
      ∀ v, v ∈ p.2 → v ∉ q.2) := by
  constructor
  · intro v
    rw [mem_flattenClusters_cluster, List.mem_dedup]
  · intro p hp q hq hne v hvp hvq
    have h1 := (memOf_cluster values keyFn c p.1 v).mp ⟨p, hp, rfl, hvp⟩
    have h2 := (memOf_cluster values keyFn c q.1 v).mp ⟨q, hq, rfl, hvq⟩
    have hk : p.1 = q.1 := by rw [← h1.2, ← h2.2]
    exact hne (entry_eq_of_keysNodup _ (keysNodup_cluster values keyFn c) p q hp hq hk)

/-- C3: concurrency invariance — clustering with any worker count `k ≥ 1`
yields the same result as the single-threaded path, and merging the
per-worker outputs of an arbitrary split of the input into chunks also
yields the single-threaded result. -/
theorem cluster_concurrency_invariance (values : List V) (keyFn : V → K)
    (k : Nat) (hk : 1 ≤ k) :
    cluster values keyFn k = cluster values keyFn 1 ∧
    ∀ parts : List (List V), parts.flatten = values →
      workerMerge parts keyFn = cluster values keyFn 1 := by
  constructor
  · rw [cluster_eq_seq, cluster_eq_seq]
  · intro parts hparts
    rw [cluster_eq_seq]
    unfold workerMerge
    rw [← List.map_flatten, hparts]

/-- Witness for C3 at a concrete input and split. -/
theorem cluster_concurrency_invariance_witness :
    cluster [1, 2, 3] (fun v => v % 2) 3 = cluster [1, 2, 3] (fun v => v % 2) 1 ∧
    workerMerge [[1], [2, 3]] (fun v => v % 2) = cluster [1, 2, 3] (fun v => v % 2) 1 :=
  ⟨(cluster_concurrency_invariance [1, 2, 3] (fun v => v % 2) 3 (by decide)).1,
    (cluster_concurrency_invariance [1, 2, 3] (fun v => v % 2) 3 (by decide)).2
      [[1], [2, 3]] (by decide)⟩

/-- C4: if the key function fails for some input value, the clusterer fails
with a `KeyComputationError` carrying an offending value; by the `Except`
return type no partial mapping reaches the caller in that case. -/
theorem cluster_error_surfaced (values : List V) (keyFn : V → Option K)
    (c : Nat) (h : ∃ v ∈ values, keyFn v = none) :
    ∃ e : KeyComputationError V, clusterE values keyFn c = .error e ∧
      e.value ∈ values ∧ keyFn e.value = none := by
  obtain ⟨e, he, hmem, hkey⟩ := computeKeys_error keyFn values h
  refine ⟨e, ?_, hmem, hkey⟩
  rw [clusterE_eq_seq, he]

/-- Witness for C4 at a concrete input. -/
theorem cluster_error_surfaced_witness :
    ∃ e : KeyComputationError Nat,
      clusterE [1, 2, 3] (fun v => if v = 2 then none else some (v % 2)) 2 = .error e ∧
      e.value ∈ [1, 2, 3] ∧
      (fun v => if v = 2 then none else some (v % 2)) e.value = none :=
  cluster_error_surfaced [1, 2, 3] (fun v => if v = 2 then none else some (v % 2)) 2
    ⟨2, by decide, by decide⟩

/-- C5: an empty input collection yields an empty result mapping, and the
fallible path returns it without an error, for every key function and every
positive concurrency degree. -/
theorem cluster_empty (keyFn : V → K) (keyFnE : V → Option K) (c : Nat)
    (hc : 0 < c) :
    cluster ([] : List V) keyFn c = [] ∧
    clusterE ([] : List V) keyFnE c = .ok [] := by
  constructor
  · rw [cluster_eq_seq]
    rfl
  · rw [clusterE_eq_seq]
    rfl

/-- Witness for C5 at a concrete key function and concurrency degree. -/
theorem cluster_empty_witness :
    cluster ([] : List Nat) (fun v => v % 2) 2 = [] ∧
    clusterE ([] : List Nat) (fun v => some (v % 2)) 2 = .ok [] :=
  cluster_empty (fun v => v % 2) (fun v => some (v % 2)) 2 (by decide)

/-- C6: determinism — the result is a function of the argument values alone:
two calls whose inputs are equal and whose key functions agree on the input
(in particular two calls with literally the same arguments) return the same
mapping, for any concurrency degrees. -/
theorem cluster_deterministic (values₁ values₂ : List V) (f g : V → K)
    (c₁ c₂ : Nat) (hval : values₁ = values₂) (hfun : ∀ v ∈ values₁, f v = g v) :
    cluster values₁ f c₁ = cluster values₂ g c₂ := by
  subst hval
  rw [cluster_eq_seq, cluster_eq_seq]
  congr 1
  exact List.map_congr_left (fun v hv => by rw [hfun v hv])

/-- Witness for C6 at a concrete input. -/
theorem cluster_deterministic_witness :
    cluster [1, 2, 3] (fun v => v % 2) 1 = cluster [1, 2, 3] (fun v => v % 2) 4 :=
  cluster_deterministic [1, 2, 3] [1, 2, 3] (fun v => v % 2) (fun v => v % 2) 1 4
    rfl (fun _ _ => rfl)

/-- C7: idempotence — flattening a clustering result and clustering the
flattened collection again yields the same partition as clustering the
original input once, for any concurrency degrees. -/
theorem cluster_idempotent (values : List V) (keyFn : V → K) (c c' : Nat) :
    SamePartition
      (cluster (flattenClusters (cluster values keyFn c)) keyFn c')
      (cluster values keyFn c) := by
  unfold SamePartition
  intro k v
  simp only [memOf_cluster, mem_flattenClusters_cluster]

theorem applyPar_eq_map (f : V → V) (values : List V) (t : Nat) :
    applyPar f values t = values.map f := by
  unfold applyPar
  rw [← List.map_flatten, chunksOf_flatten]

/-- C9: the standardization step is a per-value map — its output has exactly
one value per input value, and is identical for every thread count. -/
theorem applyPar_length_and_thread_invariant (f : V → V) (values : List V)
    (t : Nat) :
    (applyPar f values t).length = values.length ∧
    applyPar f values t = applyPar f values 1 := by
  rw [applyPar_eq_map, applyPar_eq_map]
  exact ⟨by simp, rfl⟩

/-- C10: pipeline equivalence — the inline stream path (update every row,
then cluster) and the materialize-then-cluster path (deduplicate, then
standardize, then cluster with any thread count) produce the same partition
and in particular the same number of clusters. -/
theorem pipeline_equivalence (rows : List V) (f : V → V) (keyFn : V → K)
    (c : Nat) :
    SamePartition (streamCluster rows f keyFn)
      (materializedCluster rows f keyFn c) ∧
    (streamCluster rows f keyFn).length =
      (materializedCluster rows f keyFn c).length := by
  constructor
  · unfold SamePartition streamCluster materializedCluster
    intro k v
    simp only [memOf_cluster, List.mem_map, List.mem_dedup]
  · have hperm : List.Perm (keysOf (streamCluster rows f keyFn))
        (keysOf (materializedCluster rows f keyFn c)) := by
      unfold streamCluster materializedCluster
      rw [List.perm_ext_iff_of_nodup (keysNodup_cluster _ _ _) (keysNodup_cluster _ _ _)]
      intro k
      rw [mem_keysOf_cluster, mem_keysOf_cluster]
      simp only [List.mem_map, List.mem_dedup]
    have h1 : (keysOf (streamCluster rows f keyFn)).length =
        (streamCluster rows f keyFn).length := List.length_map _ _
    have h2 : (keysOf (materializedCluster rows f keyFn c)).length =
        (materializedCluster rows f keyFn c).length := List.length_map _ _
    rw [← h1, ← h2, hperm.length_eq]

theorem clusterLoop_preserves_input (keyFn : V → Option K)
    (s : ClusterState V K) : (clusterLoop keyFn s).1.input = s.input := by
  induction s using clusterLoop.induct keyFn with
  | case1 s h hk =>
      rw [clusterLoop]
      simp only [List.get_eq_getElem] at hk
      simp [h, hk]
  | case2 s h k hk ih =>
      rw [clusterLoop]
      simp only [List.get_eq_getElem] at hk ih ⊢
      simp only [dif_pos h, hk]
      exact ih
  | case3 s h =>
      rw [clusterLoop]
      simp [h]

theorem clusterLoop_result (keyFn : V → Option K) (s : ClusterState V K) :
    (clusterLoop keyFn s).2 =
      match computeKeys keyFn (s.input.drop s.pos) with
      | .error e => .error e
      | .ok ps => .ok (mergeInto s.acc ps) := by
  induction s using clusterLoop.induct keyFn with
  | case1 s h hk =>
      rw [clusterLoop, List.drop_eq_getElem_cons h]
      simp only [List.get_eq_getElem] at hk
      simp [h, hk, computeKeys]
  | case2 s h k hk ih =>
      rw [clusterLoop, List.drop_eq_getElem_cons h]
      simp only [List.get_eq_getElem] at hk ih ⊢
      simp only [dif_pos h, hk, computeKeys]
      rw [ih]
      cases hc : computeKeys keyFn (s.input.drop (s.pos + 1)) with
      | error e => simp
      | ok ps => simp [mergeInto_cons]
  | case3 s h =>
      rw [clusterLoop]
      have hnil : s.input.drop s.pos = [] := by
        rw [List.drop_eq_nil_iff]
        omega
      simp [h, hnil, computeKeys, mergeInto_nil]

/-- C8: the clustering call does not mutate the caller-supplied values
collection — after running the call's loop from its initial state the
stored input collection equals the collection supplied, whether the call
succeeds or fails; and the loop returns exactly the clustering result of
the fallible path. -/
theorem cluster_no_mutation (values : List V) (keyFn : V → Option K) :
    (clusterLoop keyFn ⟨values, 0, []⟩).1.input = values ∧
    (clusterLoop keyFn ⟨values, 0, []⟩).2 = clusterE values keyFn 1 := by
  constructor
  · exact clusterLoop_preserves_input keyFn ⟨values, 0, []⟩
  · rw [clusterLoop_result, clusterE_eq_seq]
    rfl
